import Mathlib

/-!
# Shallow embedding of the call-center dispatch loop (src/main.rs)

The program keeps three shared collections — a pending-call queue
(`CALL_DATA`), an agent roster (`USER_DATA`) and an assignment log
(`ASSIGNED_CALL_DATA`) — and runs three periodic loops against them:
`create_call` (generator), `assign_call` (matcher) and `reset_status`
(resetter).  We embed one tick of each loop body as a pure function on a
`DispatchState` record holding the three collections.  The random id drawn
by `random_id` (`rng().random_range(1..9999)`) is passed to the generator
tick as a parameter, constrained to the range [1, 9999) where a claim
needs it.  Rust `Vec` becomes `List` with index 0 at the front, so
`Vec::push` appends at the tail and `Vec::pop` removes the last element.
-/

inductive Status where
  | OnCall
  | Available
  | Break
  | LoggedOut
deriving DecidableEq, Repr

inductive Department where
  | Sales
  | Renewal
  | Audit
  | Developer
  | Hr
deriving DecidableEq, Repr

structure User where
  id : Int
  name : String
  department : Department
  status : Status
deriving DecidableEq, Repr

structure Call where
  id : Int
  details : String
  department : Department
deriving DecidableEq, Repr

structure AssignedCall where
  user_id : Int
  call_id : Int
deriving DecidableEq, Repr

/-- The seed roster built by `create_users` in the source. -/
def create_users : List User :=
  [ { id := 1, name := "Alice", department := Department.Sales, status := Status.Available },
    { id := 2, name := "Bob", department := Department.Renewal, status := Status.Available },
    { id := 3, name := "Charlie", department := Department.Audit, status := Status.Available },
    { id := 4, name := "David", department := Department.Developer, status := Status.Available },
    { id := 5, name := "Eve", department := Department.Hr, status := Status.Available } ]

/-- The three shared collections: `CALL_DATA`, `USER_DATA`, `ASSIGNED_CALL_DATA`. -/
structure DispatchState where
  calls : List Call
  users : List User
  assigned_calls : List AssignedCall
deriving DecidableEq, Repr

/-- The state the `lazy_static` block initialises at process start. -/
def initialState : DispatchState :=
  { calls := [], users := create_users, assigned_calls := [] }

/-- The `match call_id % 5` arms computing the department of a new call. -/
def departmentOf (call_id : Int) : Department :=
  if call_id % 5 = 0 then Department.Sales
  else if call_id % 5 = 1 then Department.Renewal
  else if call_id % 5 = 2 then Department.Audit
  else if call_id % 5 = 3 then Department.Developer
  else Department.Hr

/-- The `Call` value the generator constructs from the drawn id. -/
def new_call (call_id : Int) : Call :=
  { id := call_id,
    details := s!"Call details for ID {call_id}",
    department := departmentOf call_id }

/-- One tick of the generator loop: push the new call onto the queue's tail. -/
def create_call (call_id : Int) (s : DispatchState) : DispatchState :=
  { s with calls := s.calls ++ [new_call call_id] }

/-- `users.iter_mut().find(|u| u.department == call.department && u.status == Available)`
followed by the in-place mutation `user.status = OnCall` and the construction
of the `AssignedCall`: returns the updated roster and the record, if any. -/
def findAssign (call : Call) : List User → List User × Option AssignedCall
  | [] => ([], none)
  | u :: us =>
    if u.department = call.department ∧ u.status = Status.Available then
      ({ u with status := Status.OnCall } :: us, some { user_id := u.id, call_id := call.id })
    else
      let p := findAssign call us
      (u :: p.1, p.2)

/-- The matcher's `while let Some(call) = calls.pop()` loop body, acting on the
calls in pop order (the first list argument), threading the roster and the log;
a produced record is pushed onto the log's tail. -/
def drainLoop : List Call → List User → List AssignedCall → List User × List AssignedCall
  | [], users, log => (users, log)
  | call :: rest, users, log =>
    let p := findAssign call users
    match p.2 with
    | some a => drainLoop rest p.1 (log ++ [a])
    | none => drainLoop rest p.1 log

/-- One tick of the matcher loop.  `Vec::pop` removes from the tail, so the
queue is consumed back to front — `s.calls.reverse` is the pop order — and the
loop runs until the queue is empty. -/
def assign_call (s : DispatchState) : DispatchState :=
  { calls := [],
    users := (drainLoop s.calls.reverse s.users s.assigned_calls).1,
    assigned_calls := (drainLoop s.calls.reverse s.users s.assigned_calls).2 }

/-- The resetter's per-user update: `if assigned_user_ids.contains(&user.id)
{ user.status = Status::Available }`. -/
def resetUser (ids : List Int) (u : User) : User :=
  if (ids.contains u.id) then { u with status := Status.Available } else u

/-- One tick of the resetter loop: collect the log's `user_id`s and set every
roster member whose id is among them to `Available`. -/
def reset_status (s : DispatchState) : DispatchState :=
  { s with users := s.users.map (resetUser (s.assigned_calls.map fun ac => ac.user_id)) }

/-- Modelled from the spec: the canonical matching policy of §4.2 — process
calls in FIFO arrival order; a matched call is removed, an unmatched call
stays in its original relative position.  Used only to compare the source's
policy against the spec's canonical one. -/
def canonicalFifoLoop : List Call → List User → List AssignedCall →
    List Call × List User × List AssignedCall
  | [], users, log => ([], users, log)
  | call :: rest, users, log =>
    let p := findAssign call users
    match p.2 with
    | some a => canonicalFifoLoop rest p.1 (log ++ [a])
    | none =>
      let q := canonicalFifoLoop rest users log
      (call :: q.1, q.2.1, q.2.2)

/-- Modelled from the spec: one canonical FIFO matcher pass over the state. -/
def canonicalFifoPass (s : DispatchState) : DispatchState :=
  { calls := (canonicalFifoLoop s.calls s.users s.assigned_calls).1,
    users := (canonicalFifoLoop s.calls s.users s.assigned_calls).2.1,
    assigned_calls := (canonicalFifoLoop s.calls s.users s.assigned_calls).2.2 }

/-- One newest-first processing step, phrased as a fold step: assign the call
against the current roster, appending the record when one is produced. -/
def lifoStep (call : Call) (p : List User × List AssignedCall) :
    List User × List AssignedCall :=
  let q := findAssign call p.1
  match q.2 with
  | some a => (q.1, p.2 ++ [a])
  | none => (q.1, p.2)

/-- The states reachable from process start by any interleaving of generator,
matcher and resetter ticks, the generator's id drawn from [1, 9999). -/
inductive Reachable : DispatchState → Prop
  | init : Reachable initialState
  | gen (s : DispatchState) (call_id : Int) (h1 : 1 ≤ call_id) (h2 : call_id < 9999) :
      Reachable s → Reachable (create_call call_id s)
  | matcher (s : DispatchState) : Reachable s → Reachable (assign_call s)
  | resetter (s : DispatchState) : Reachable s → Reachable (reset_status s)

/-- The immutable part of an agent: everything but the status. -/
def userKey (u : User) : Int × String × Department := (u.id, u.name, u.department)

/-- How one matcher pass over the calls `cs` may relate a roster entry to its
updated value: either untouched, or moved from `Available` to `OnCall` by a
match with some call of the agent's department whose record is in the
resulting log. -/
def MatcherStep (cs : List Call) (log : List AssignedCall) (u u' : User) : Prop :=
  u' = u ∨
    (u.status = Status.Available ∧ u' = { u with status := Status.OnCall } ∧
      ∃ c ∈ cs, c.department = u.department ∧
        ({ user_id := u.id, call_id := c.id } : AssignedCall) ∈ log)

/-- The seed roster with its only Sales agent busy. -/
def busySalesUsers : List User :=
  [ { id := 1, name := "Alice", department := Department.Sales, status := Status.OnCall },
    { id := 2, name := "Bob", department := Department.Renewal, status := Status.Available },
    { id := 3, name := "Charlie", department := Department.Audit, status := Status.Available },
    { id := 4, name := "David", department := Department.Developer, status := Status.Available },
    { id := 5, name := "Eve", department := Department.Hr, status := Status.Available } ]

/-- A state queueing the Sales call 10 while no Sales agent is Available. -/
def busySalesState : DispatchState :=
  { calls := [new_call 10], users := busySalesUsers, assigned_calls := [] }

/-- A state queueing two Renewal calls, call 1 ahead of call 6, over the seed
roster (which has a single Renewal agent, Bob). -/
def twoRenewalState : DispatchState :=
  { calls := [new_call 1, new_call 6], users := create_users, assigned_calls := [] }

/-- A state whose only agent is on Break while the log holds a record naming
that agent's id. -/
def breakState : DispatchState :=
  { calls := [],
    users := [{ id := 2, name := "Bob", department := Department.Renewal,
                status := Status.Break }],
    assigned_calls := [{ user_id := 2, call_id := 11 }] }

/-- A state whose single agent is OnCall, with the Sales call 10 queued. -/
def oneBusyState : DispatchState :=
  { calls := [new_call 10],
    users := [{ id := 1, name := "Alice", department := Department.Sales,
                status := Status.OnCall }],
    assigned_calls := [] }

/-! ## Helper lemmas about `findAssign` -/

theorem findAssign_fst_of_none {call : Call} {us : List User}
    (h : (findAssign call us).2 = none) : (findAssign call us).1 = us := by
  induction us with
  | nil => rfl
  | cons u rest ih =>
    by_cases hc : u.department = call.department ∧ u.status = Status.Available
    · simp [findAssign, hc] at h
    · simp only [findAssign, if_neg hc] at h ⊢
      rw [ih h]

theorem findAssign_none_no_eligible {call : Call} {us : List User}
    (h : (findAssign call us).2 = none) :
    ∀ u ∈ us, ¬(u.department = call.department ∧ u.status = Status.Available) := by
  induction us with
  | nil => intro u hu; cases hu
  | cons u rest ih =>
    by_cases hc : u.department = call.department ∧ u.status = Status.Available
    · simp [findAssign, hc] at h
    · simp only [findAssign, if_neg hc] at h
      intro v hv
      rcases List.mem_cons.1 hv with rfl | hv'
      · exact hc
      · exact ih h v hv'

theorem findAssign_some_split {call : Call} {us : List User} {a : AssignedCall}
    (h : (findAssign call us).2 = some a) :
    ∃ pre u post, us = pre ++ u :: post ∧
      (∀ v ∈ pre, ¬(v.department = call.department ∧ v.status = Status.Available)) ∧
      u.department = call.department ∧ u.status = Status.Available ∧
      a = { user_id := u.id, call_id := call.id } ∧
      (findAssign call us).1 = pre ++ { u with status := Status.OnCall } :: post := by
  induction us with
  | nil => simp [findAssign] at h
  | cons u rest ih =>
    by_cases hc : u.department = call.department ∧ u.status = Status.Available
    · refine ⟨[], u, rest, rfl, by simp, hc.1, hc.2, ?_, ?_⟩
      · simp only [findAssign, if_pos hc] at h
        exact (Option.some_inj.1 h).symm
      · simp [findAssign, if_pos hc]
    · simp only [findAssign, if_neg hc] at h ⊢
      rcases ih h with ⟨pre, w, post, hsplit, hpre, hdep, hav, ha, hfst⟩
      refine ⟨u :: pre, w, post, by rw [hsplit]; rfl, ?_, hdep, hav, ha, ?_⟩
      · intro v hv
        rcases List.mem_cons.1 hv with rfl | hv'
        · exact hc
        · exact hpre v hv'
      · rw [hfst]; rfl

theorem findAssign_of_no_available {call : Call} {us : List User}
    (h : ∀ u ∈ us, u.status ≠ Status.Available) :
    findAssign call us = (us, none) := by
  induction us with
  | nil => rfl
  | cons u rest ih =>
    have hc : ¬(u.department = call.department ∧ u.status = Status.Available) := by
      intro hand
      exact h u (List.mem_cons_self u rest) hand.2
    simp only [findAssign, if_neg hc]
    rw [ih fun v hv => h v (List.mem_cons_of_mem u hv)]

/-! ## Helper lemmas about `drainLoop` -/

theorem drainLoop_log_extends :
    ∀ (cs : List Call) (us : List User) (log : List AssignedCall),
      ∃ t, (drainLoop cs us log).2 = log ++ t := by
  intro cs
  induction cs with
  | nil => intro us log; exact ⟨[], (List.append_nil log).symm⟩
  | cons call rest ih =>
    intro us log
    simp only [drainLoop]
    cases h : (findAssign call us).2 with
    | none =>
      exact ih _ log
    | some a =>
      rcases ih (findAssign call us).1 (log ++ [a]) with ⟨t, ht⟩
      exact ⟨[a] ++ t, by rw [ht, List.append_assoc]⟩

theorem drainLoop_of_no_available :
    ∀ (cs : List Call) (us : List User) (log : List AssignedCall),
      (∀ u ∈ us, u.status ≠ Status.Available) →
      drainLoop cs us log = (us, log) := by
  intro cs
  induction cs with
  | nil => intro us log _; rfl
  | cons call rest ih =>
    intro us log h
    have hfa : findAssign call us = (us, none) := findAssign_of_no_available h
    simp only [drainLoop, hfa]
    exact ih us log h

theorem drainLoop_append :
    ∀ (xs ys : List Call) (us : List User) (log : List AssignedCall),
      drainLoop (xs ++ ys) us log =
        drainLoop ys (drainLoop xs us log).1 (drainLoop xs us log).2 := by
  intro xs
  induction xs with
  | nil => intro ys us log; rfl
  | cons call rest ih =>
    intro ys us log
    simp only [List.cons_append, drainLoop]
    cases h : (findAssign call us).2 with
    | none => exact ih ys _ log
    | some a => exact ih ys _ (log ++ [a])

theorem drainLoop_singleton (call : Call) (us : List User) (log : List AssignedCall) :
    drainLoop [call] us log = lifoStep call (us, log) := by
  simp only [drainLoop, lifoStep]

theorem drainLoop_reverse_eq_foldr :
    ∀ (cs : List Call) (us : List User) (log : List AssignedCall),
      drainLoop cs.reverse us log = cs.foldr lifoStep (us, log) := by
  intro cs
  induction cs with
  | nil => intro us log; rfl
  | cons call rest ih =>
    intro us log
    rw [List.reverse_cons, drainLoop_append, ih, List.foldr_cons,
      drainLoop_singleton]

/-! ## Generic Forall₂ helpers -/

theorem forall₂_refl_of_mem {α : Type} {R : α → α → Prop} :
    ∀ {l : List α}, (∀ a ∈ l, R a a) → List.Forall₂ R l l := by
  intro l
  induction l with
  | nil => intro _; exact List.Forall₂.nil
  | cons a rest ih =>
    intro h
    exact List.Forall₂.cons (h a (List.mem_cons_self a rest))
      (ih fun b hb => h b (List.mem_cons_of_mem a hb))

theorem forall₂_trans_of {α : Type} {R S T : α → α → Prop}
    (hc : ∀ a b c, R a b → S b c → T a c) :
    ∀ {l₁ l₂ l₃ : List α}, List.Forall₂ R l₁ l₂ → List.Forall₂ S l₂ l₃ →
      List.Forall₂ T l₁ l₃ := by
  intro l₁ l₂ l₃ h₁
  induction h₁ generalizing l₃ with
  | nil =>
    intro h₂
    cases h₂
    exact List.Forall₂.nil
  | cons hab _ ih =>
    intro h₂
    cases h₂ with
    | cons hbc h' => exact List.Forall₂.cons (hc _ _ _ hab hbc) (ih h')

theorem forall₂_single_update {α : Type} {R : α → α → Prop} :
    ∀ (pre : List α) {post : List α} {u u' : α},
      (∀ a ∈ pre, R a a) → (∀ a ∈ post, R a a) → R u u' →
      List.Forall₂ R (pre ++ u :: post) (pre ++ u' :: post) := by
  intro pre
  induction pre with
  | nil =>
    intro post u u' _ hpost hu
    exact List.Forall₂.cons hu (forall₂_refl_of_mem hpost)
  | cons a rest ih =>
    intro post u u' hpre hpost hu
    exact List.Forall₂.cons (hpre a (List.mem_cons_self a rest))
      (ih (fun b hb => hpre b (List.mem_cons_of_mem a hb)) hpost hu)

theorem forall₂_mem_right {α β : Type} {R : α → β → Prop} :
    ∀ {l₁ : List α} {l₂ : List β}, List.Forall₂ R l₁ l₂ →
      ∀ b ∈ l₂, ∃ a ∈ l₁, R a b := by
  intro l₁ l₂ h
  induction h with
  | nil => intro b hb; cases hb
  | cons hab _ ih =>
    intro b hb
    rcases List.mem_cons.1 hb with rfl | hb'
    · exact ⟨_, List.mem_cons_self _ _, hab⟩
    · rcases ih b hb' with ⟨a, ha, har⟩
      exact ⟨a, List.mem_cons_of_mem _ ha, har⟩

theorem map_eq_of_forall₂ {α β : Type} {f : α → β} :
    ∀ {l₁ l₂ : List α}, List.Forall₂ (fun a b => f b = f a) l₁ l₂ →
      l₂.map f = l₁.map f := by
  intro l₁ l₂ h
  induction h with
  | nil => rfl
  | cons hab _ ih => simp only [List.map_cons, hab, ih]

theorem forall₂_map_self {α : Type} (f : α → α) :
    ∀ (l : List α), List.Forall₂ (fun a b => b = f a) l (l.map f) := by
  intro l
  induction l with
  | nil => exact List.Forall₂.nil
  | cons a rest ih => exact List.Forall₂.cons rfl ih

/-! ## The matcher pass relates rosters by `MatcherStep` -/

theorem drainLoop_forall₂ :
    ∀ (cs : List Call) (us : List User) (log : List AssignedCall),
      List.Forall₂ (MatcherStep cs (drainLoop cs us log).2) us (drainLoop cs us log).1 := by
  intro cs
  induction cs with
  | nil =>
    intro us log
    exact forall₂_refl_of_mem fun u _ => Or.inl rfl
  | cons call rest ih =>
    intro us log
    simp only [drainLoop]
    cases h : (findAssign call us).2 with
    | none =>
      rw [findAssign_fst_of_none h]
      refine (ih us log).imp fun u u' hr => ?_
      refine hr.imp id fun hx => ?_
      rcases hx with ⟨hav, heq, c, hc, hcd, hm⟩
      exact ⟨hav, heq, c, List.mem_cons_of_mem _ hc, hcd, hm⟩
    | some a =>
      rcases findAssign_some_split h with ⟨pre, u, post, hsplit, _, hdep, hav, ha, hfst⟩
      rw [hfst]
      subst hsplit
      have h₁ : List.Forall₂
          (fun x y => y = x ∨ (x = u ∧ y = { u with status := Status.OnCall }))
          (pre ++ u :: post) (pre ++ { u with status := Status.OnCall } :: post) :=
        forall₂_single_update pre (fun b _ => Or.inl rfl) (fun b _ => Or.inl rfl)
          (Or.inr ⟨rfl, rfl⟩)
      refine forall₂_trans_of ?_ h₁
        (ih (pre ++ { u with status := Status.OnCall } :: post) (log ++ [a]))
      rintro x y z (rfl | ⟨rfl, rfl⟩) hs
      · refine hs.imp id fun hx => ?_
        rcases hx with ⟨hav', heq', c, hc', hcd', hm'⟩
        exact ⟨hav', heq', c, List.mem_cons_of_mem _ hc', hcd', hm'⟩
      · rcases hs with rfl | ⟨hav', _, _⟩
        · refine Or.inr ⟨hav, rfl, call, List.mem_cons_self _ _, hdep.symm, ?_⟩
          rcases drainLoop_log_extends rest
            (pre ++ { x with status := Status.OnCall } :: post) (log ++ [a]) with ⟨t, ht⟩
          rw [ht, ha]
          exact List.mem_append_left _ (List.mem_append_right _ (List.mem_singleton_self _))
        · simp at hav'

theorem assign_call_users_forall₂ (s : DispatchState) :
    List.Forall₂ (MatcherStep s.calls (assign_call s).assigned_calls)
      s.users (assign_call s).users := by
  refine (drainLoop_forall₂ s.calls.reverse s.users s.assigned_calls).imp
    fun u u' hr => ?_
  refine hr.imp id fun hx => ?_
  rcases hx with ⟨hav, heq, c, hc, hcd, hm⟩
  exact ⟨hav, heq, c, List.mem_reverse.1 hc, hcd, hm⟩


/-! ## Properties of the resetter's per-user update -/

theorem resetUser_of_contains {ids : List Int} {u : User}
    (h : ids.contains u.id = true) :
    resetUser ids u = { u with status := Status.Available } := by
  unfold resetUser
  rw [if_pos h]

theorem resetUser_of_not_contains {ids : List Int} {u : User}
    (h : ¬ ids.contains u.id = true) :
    resetUser ids u = u := by
  unfold resetUser
  rw [if_neg h]

theorem resetUser_key (ids : List Int) (u : User) :
    userKey (resetUser ids u) = userKey u := by
  by_cases h : ids.contains u.id = true
  · rw [resetUser_of_contains h]
    rfl
  · rw [resetUser_of_not_contains h]

theorem resetUser_id (ids : List Int) (u : User) :
    (resetUser ids u).id = u.id := by
  by_cases h : ids.contains u.id = true
  · rw [resetUser_of_contains h]
  · rw [resetUser_of_not_contains h]

theorem resetUser_idem (ids : List Int) (u : User) :
    resetUser ids (resetUser ids u) = resetUser ids u := by
  by_cases h : ids.contains u.id = true
  · rw [resetUser_of_contains h]
    exact resetUser_of_contains h
  · rw [resetUser_of_not_contains h]
    exact resetUser_of_not_contains h

theorem reset_status_users_key (s : DispatchState) :
    (reset_status s).users.map userKey = s.users.map userKey := by
  show (s.users.map (resetUser (s.assigned_calls.map fun ac => ac.user_id))).map userKey =
    s.users.map userKey
  rw [List.map_map]
  apply List.map_congr_left
  intro u _
  exact resetUser_key _ u

/-! ## The claims -/

/-- C8: Scenario A — from the seed roster with a queue holding exactly call 11
(Renewal, since 11 mod 5 = 1), one matcher pass appends the record
(user 2, call 11), sets Bob's status to OnCall and removes call 11 from the
queue. -/
theorem scenario_a_matcher_pass :
    (new_call 11).department = Department.Renewal ∧
    assign_call { calls := [new_call 11], users := create_users, assigned_calls := [] } =
      { calls := [],
        users :=
          [ { id := 1, name := "Alice", department := Department.Sales,
              status := Status.Available },
            { id := 2, name := "Bob", department := Department.Renewal,
              status := Status.OnCall },
            { id := 3, name := "Charlie", department := Department.Audit,
              status := Status.Available },
            { id := 4, name := "David", department := Department.Developer,
              status := Status.Available },
            { id := 5, name := "Eve", department := Department.Hr,
              status := Status.Available } ],
        assigned_calls := [{ user_id := 2, call_id := 11 }] } := by
  decide

/-- C4: one generator tick appends exactly one call to the queue's tail and
touches nothing else; the call carries the drawn id, which lies in [1, 9999),
and its department is the fixed 5-way mapping indexed by id mod 5. -/
theorem generator_tick_spec (s : DispatchState) (call_id : Int)
    (h1 : 1 ≤ call_id) (h2 : call_id < 9999) :
    (create_call call_id s).calls = s.calls ++ [new_call call_id] ∧
    (create_call call_id s).users = s.users ∧
    (create_call call_id s).assigned_calls = s.assigned_calls ∧
    (new_call call_id).id = call_id ∧
    1 ≤ (new_call call_id).id ∧ (new_call call_id).id < 9999 ∧
    (new_call call_id).department =
      [Department.Sales, Department.Renewal, Department.Audit, Department.Developer,
        Department.Hr].getD ((new_call call_id).id % 5).toNat Department.Sales := by
  refine ⟨rfl, rfl, rfl, rfl, h1, h2, ?_⟩
  have h5 : call_id % 5 = 0 ∨ call_id % 5 = 1 ∨ call_id % 5 = 2 ∨ call_id % 5 = 3 ∨
      call_id % 5 = 4 := by omega
  rcases h5 with h | h | h | h | h <;> simp [new_call, departmentOf, h]

/-- Witness for C4 at the concrete id 11 drawn into the initial state. -/
theorem generator_tick_spec_witness :
    (create_call 11 initialState).calls = initialState.calls ++ [new_call 11] ∧
    (create_call 11 initialState).users = initialState.users ∧
    (create_call 11 initialState).assigned_calls = initialState.assigned_calls ∧
    (new_call 11).id = 11 ∧
    1 ≤ (new_call 11).id ∧ (new_call 11).id < 9999 ∧
    (new_call 11).department =
      [Department.Sales, Department.Renewal, Department.Audit, Department.Developer,
        Department.Hr].getD ((new_call 11).id % 5).toNat Department.Sales :=
  generator_tick_spec initialState 11 (by decide) (by decide)

/-- C5: the assignment log is append-only — a generator tick and a resetter
pass leave it exactly unchanged, and a matcher pass only appends to its end. -/
theorem log_append_only (s : DispatchState) (call_id : Int) :
    (create_call call_id s).assigned_calls = s.assigned_calls ∧
    (reset_status s).assigned_calls = s.assigned_calls ∧
    ∃ t, (assign_call s).assigned_calls = s.assigned_calls ++ t :=
  ⟨rfl, rfl, drainLoop_log_extends s.calls.reverse s.users s.assigned_calls⟩

/-- C1 counterexample: with the Sales call 10 queued and no Available Sales
agent on the roster (`findAssign` yields no record), one matcher pass removes
call 10 from the queue even though no AssignedCall was appended. -/
theorem unmatched_call_dropped :
    busySalesState.calls = [new_call 10] ∧
    (new_call 10).department = Department.Sales ∧
    (findAssign (new_call 10) busySalesUsers).2 = none ∧
    assign_call busySalesState =
      { calls := [], users := busySalesUsers, assigned_calls := [] } := by
  decide

/-- C1 (amended): every matcher pass drains the queue entirely — after the
pass the queue is empty, matched or not — and a pass over a roster with no
Available agent leaves both the roster and the log unchanged: unmatched calls
are dropped from the queue, not retained. -/
theorem matcher_pass_drains_queue (s : DispatchState) :
    (assign_call s).calls = [] ∧
    ((∀ u ∈ s.users, u.status ≠ Status.Available) →
      (assign_call s).users = s.users ∧
      (assign_call s).assigned_calls = s.assigned_calls) := by
  refine ⟨rfl, fun h => ?_⟩
  have hd := drainLoop_of_no_available s.calls.reverse s.users s.assigned_calls h
  constructor
  · show (drainLoop s.calls.reverse s.users s.assigned_calls).1 = s.users
    rw [hd]
  · show (drainLoop s.calls.reverse s.users s.assigned_calls).2 = s.assigned_calls
    rw [hd]

/-- Witness for C1 (amended) at `oneBusyState`, whose only agent is OnCall. -/
theorem matcher_pass_drains_queue_witness :
    (assign_call oneBusyState).calls = [] ∧
    (assign_call oneBusyState).users = oneBusyState.users ∧
    (assign_call oneBusyState).assigned_calls = oneBusyState.assigned_calls := by
  have h := matcher_pass_drains_queue oneBusyState
  have h2 := h.2 (by decide)
  exact ⟨h.1, h2.1, h2.2⟩

/-- C2 counterexample: with the Renewal calls 1 (older) and 6 (newer) queued
over the seed roster, the matcher assigns Bob to call 6 — the newest — while
the spec's canonical FIFO pass assigns call 1: processing is not FIFO. -/
theorem matcher_not_fifo :
    (assign_call twoRenewalState).assigned_calls = [{ user_id := 2, call_id := 6 }] ∧
    (canonicalFifoPass twoRenewalState).assigned_calls = [{ user_id := 2, call_id := 1 }] ∧
    ({ user_id := 2, call_id := 6 } : AssignedCall) ≠ { user_id := 2, call_id := 1 } := by
  decide

/-- C2 (amended): the matcher processes queued calls newest-first — the pass
is the right fold of `lifoStep` over the queue, popping the tail — dropping
unmatched calls; for each processed call the roster is scanned front to back,
so the first Available agent of the call's department in roster order
(ascending id for the seed roster) is the one assigned. -/
theorem matcher_lifo_first_available (s : DispatchState) :
    (assign_call s =
      { calls := [],
        users := (s.calls.foldr lifoStep (s.users, s.assigned_calls)).1,
        assigned_calls := (s.calls.foldr lifoStep (s.users, s.assigned_calls)).2 }) ∧
    (∀ (call : Call) (us : List User) (a : AssignedCall),
      (findAssign call us).2 = some a →
      ∃ pre u post, us = pre ++ u :: post ∧
        (∀ v ∈ pre, ¬(v.department = call.department ∧ v.status = Status.Available)) ∧
        u.department = call.department ∧ u.status = Status.Available ∧
        a = { user_id := u.id, call_id := call.id } ∧
        (findAssign call us).1 = pre ++ { u with status := Status.OnCall } :: post) ∧
    create_users.map (fun u => u.id) = [1, 2, 3, 4, 5] := by
  refine ⟨?_, ?_, by decide⟩
  · show ({ calls := [],
            users := (drainLoop s.calls.reverse s.users s.assigned_calls).1,
            assigned_calls := (drainLoop s.calls.reverse s.users s.assigned_calls).2 } :
          DispatchState) = _
    rw [drainLoop_reverse_eq_foldr s.calls s.users s.assigned_calls]
  · intro call us a h
    exact findAssign_some_split h

/-- C3: during a matcher pass each agent's entry either is untouched or moves
from Available to OnCall through a match with a queued call of the agent's own
department, the appended record carrying exactly that agent's id as user id
and that call's id as call id. -/
theorem matcher_oncall_transitions (s : DispatchState) :
    List.Forall₂
      (fun u u' => u' = u ∨
        (u.status = Status.Available ∧ u' = { u with status := Status.OnCall } ∧
          ∃ c ∈ s.calls, c.department = u.department ∧
            ({ user_id := u.id, call_id := c.id } : AssignedCall) ∈
              (assign_call s).assigned_calls))
      s.users (assign_call s).users :=
  assign_call_users_forall₂ s

/-- C6 counterexample: the resetter does move an agent out of Break — in
`breakState` the only agent is on Break, its id appears in the log as a
user id, and one resetter pass sets it Available. -/
theorem resetter_moves_break_agent :
    (breakState.users.map fun u => u.status) = [Status.Break] ∧
    (breakState.assigned_calls.map fun ac => ac.user_id) = [2] ∧
    ((reset_status breakState).users.map fun u => u.status) = [Status.Available] := by
  decide

/-- C6 (amended): the matcher never changes an agent that is not Available —
so Break and LoggedOut agents are untouched by it — and the resetter leaves an
agent unchanged exactly when its id is absent from the log's user ids, but
sets its status to Available, even out of Break or LoggedOut, when its id
appears there. -/
theorem terminal_statuses (s : DispatchState) :
    List.Forall₂ (fun u u' => u.status ≠ Status.Available → u' = u)
      s.users (assign_call s).users ∧
    List.Forall₂ (fun u u' =>
        (((s.assigned_calls.map fun ac => ac.user_id).contains u.id) = false → u' = u) ∧
        (((s.assigned_calls.map fun ac => ac.user_id).contains u.id) = true →
          u' = { u with status := Status.Available }))
      s.users (reset_status s).users := by
  constructor
  · refine (assign_call_users_forall₂ s).imp fun u u' hr => ?_
    intro hna
    rcases hr with heq | ⟨hav, _, _⟩
    · exact heq
    · exact absurd hav hna
  · refine (forall₂_map_self _ s.users).imp fun u u' hr => ?_
    constructor
    · intro hc
      rw [hr]
      apply resetUser_of_not_contains
      rw [hc]
      exact Bool.false_ne_true
    · intro hc
      rw [hr]
      exact resetUser_of_contains hc

/-- C7: the resetter pass is idempotent on the whole state, and after one pass
every agent whose id appears among the log's user ids is Available. -/
theorem reset_status_idempotent (s : DispatchState) :
    reset_status (reset_status s) = reset_status s ∧
    ∀ u ∈ (reset_status s).users,
      ((s.assigned_calls.map fun ac => ac.user_id).contains u.id) = true →
        u.status = Status.Available := by
  constructor
  · show ({ calls := s.calls,
            users := (s.users.map (resetUser (s.assigned_calls.map fun ac => ac.user_id))).map
              (resetUser (s.assigned_calls.map fun ac => ac.user_id)),
            assigned_calls := s.assigned_calls } : DispatchState) =
      { calls := s.calls,
        users := s.users.map (resetUser (s.assigned_calls.map fun ac => ac.user_id)),
        assigned_calls := s.assigned_calls }
    rw [List.map_map]
    have husers : s.users.map
        ((resetUser (s.assigned_calls.map fun ac => ac.user_id)) ∘
          (resetUser (s.assigned_calls.map fun ac => ac.user_id))) =
        s.users.map (resetUser (s.assigned_calls.map fun ac => ac.user_id)) := by
      apply List.map_congr_left
      intro u _
      exact resetUser_idem _ u
    rw [husers]
  · intro u hu hc
    have hu' : u ∈ s.users.map (resetUser (s.assigned_calls.map fun ac => ac.user_id)) := hu
    rcases List.mem_map.1 hu' with ⟨v, hv, rfl⟩
    have hc' : (s.assigned_calls.map fun ac => ac.user_id).contains v.id = true := by
      rw [← resetUser_id (s.assigned_calls.map fun ac => ac.user_id) v]
      exact hc
    rw [resetUser_of_contains hc']

/-- C9: in every state reachable from process start the roster holds exactly
the five seed agents — same ids, names and departments, in the seed order —
and every agent's status is Available or OnCall: Break and LoggedOut never
occur in the dispatch loop. -/
theorem reachable_roster_invariant (s : DispatchState) (h : Reachable s) :
    s.users.map userKey = create_users.map userKey ∧
    ∀ u ∈ s.users, u.status = Status.Available ∨ u.status = Status.OnCall := by
  induction h with
  | init => exact ⟨rfl, by decide⟩
  | gen s' call_id h1 h2 hr ih => exact ih
  | matcher s' hr ih =>
    have hf := assign_call_users_forall₂ s'
    constructor
    · have hkey : (assign_call s').users.map userKey = s'.users.map userKey := by
        apply map_eq_of_forall₂
        refine hf.imp fun u u' hr' => ?_
        rcases hr' with heq | ⟨_, heq, _⟩
        · exact congrArg userKey heq
        · exact (congrArg userKey heq).trans rfl
      rw [hkey, ih.1]
    · intro u' hu'
      rcases forall₂_mem_right hf u' hu' with ⟨u, hu, hr'⟩
      rcases hr' with heq | ⟨_, heq, _⟩
      · rw [heq]
        exact ih.2 u hu
      · rw [heq]
        exact Or.inr rfl
  | resetter s' hr ih =>
    constructor
    · rw [reset_status_users_key s', ih.1]
    · intro u' hu'
      have hu'' : u' ∈ s'.users.map
          (resetUser (s'.assigned_calls.map fun ac => ac.user_id)) := hu'
      rcases List.mem_map.1 hu'' with ⟨u, hu, rfl⟩
      by_cases hc : (s'.assigned_calls.map fun ac => ac.user_id).contains u.id = true
      · rw [resetUser_of_contains hc]
        exact Or.inl rfl
      · rw [resetUser_of_not_contains hc]
        exact ih.2 u hu

/-- Witness for C9 at the initial state. -/
theorem reachable_roster_invariant_witness :
    initialState.users.map userKey = create_users.map userKey ∧
    ∀ u ∈ initialState.users,
      u.status = Status.Available ∨ u.status = Status.OnCall :=
  reachable_roster_invariant initialState Reachable.init
